import Mathlib

/-!
Verification development for the basketry/zod schema generator.

The definitions below are a shallow embedding of `src/schema-file.ts`
(the module that collects schema-worthy entities, resolves their
dependency order with a fixed-point layering pass, and synthesizes zod
schema expressions per entity).  Pure functions of the source become
Lean functions producing the same strings; the generator's `yield`
sequences become `List String` values.  External collaborators (the
`case` casing package, the basketry HTTP-binding metadata helper, and
the JavaScript `localeCompare`/`Set`/stable-`sort` builtins) are
modelled explicitly where noted.
-/

/-- Models the external `case` package's `camel` on identifier-like
strings: the first character is lowercased.  Only this fragment of the
library's behavior is exercised by the generator's comparisons. -/
def camel (s : String) : String :=
  match s.data with
  | [] => ""
  | c :: cs => ⟨Char.toLower c :: cs⟩

/-- Models the external `case` package's `pascal` on identifier-like
strings: the first character is uppercased. -/
def pascal (s : String) : String :=
  match s.data with
  | [] => ""
  | c :: cs => ⟨Char.toUpper c :: cs⟩

/-- Primary collation weight of a character under the root locale
(restricted to ASCII): uppercase letters collate with their lowercase
counterparts.  Part of the model of `String.prototype.localeCompare`. -/
def primaryW (c : Char) : Nat :=
  if 65 ≤ c.toNat ∧ c.toNat ≤ 90 then c.toNat + 32 else c.toNat

/-- Case (tertiary) collation weight: lowercase sorts before uppercase
at equal primary weight, as in the root locale. -/
def caseW (c : Char) : Nat :=
  if 65 ≤ c.toNat ∧ c.toNat ≤ 90 then 1 else 0

/-- Lexicographic comparison of weight sequences. -/
def ordListNat : List Nat → List Nat → Ordering
  | [], [] => .eq
  | [], _ :: _ => .lt
  | _ :: _, [] => .gt
  | a :: as, b :: bs => (compare a b).then (ordListNat as bs)

/-- Models `String.prototype.localeCompare` (no arguments, hence the
default/root locale) on ASCII alphanumeric identifiers: compare the
primary weight sequences, then break ties by case weights. -/
def localeOrd (a b : String) : Ordering :=
  (ordListNat (a.data.map primaryW) (b.data.map primaryW)).then
    (ordListNat (a.data.map caseW) (b.data.map caseW))

/-- Sign-valued form of `localeOrd`, matching the JavaScript call
`a.localeCompare(b)` as used by the resolver's comparator. -/
def localeCompare (a b : String) : Int :=
  match localeOrd a b with
  | .lt => -1
  | .eq => 0
  | .gt => 1

/-- Plain character-code lexicographic order on char lists (the
"simple lexicographic comparison" the spec speaks about). -/
def charListLe : List Char → List Char → Bool
  | [], _ => true
  | _ :: _, [] => false
  | a :: as, b :: bs =>
    if a.toNat < b.toNat then true
    else if b.toNat < a.toNat then false
    else charListLe as bs

/-- Character-code lexicographic order on strings. -/
def charCodeLe (a b : String) : Bool :=
  charListLe a.data b.data

/-- A validation rule attached to a member or an entity.  The source
accesses payload fields (`length.value`, `min.value`, ...) depending on
the rule `id`; unused payloads carry their defaults. -/
structure Rule where
  id : String
  length : Int := 0
  value : Int := 0
  min : Int := 0
  max : Int := 0
  pattern : String := ""
  values : List String := []
deriving DecidableEq

/-- Discriminates `Parameter`/`Property`/`MapKey`/`MapValue` members;
a plain `TypedValue` has no `kind` field (`hasKind` is false). -/
inductive MemberKind where
  | parameter
  | property
  | mapKey
  | mapValue
deriving DecidableEq

/-- A member: field, method parameter, map key, map value, or typed
value.  `constant`/`default` store the rendered literal text that the
source interpolates into the output. -/
structure Member where
  kind : Option MemberKind := none
  name : String := ""
  isPrimitive : Bool
  typeName : String
  rules : List Rule := []
  constant : Option String := none
  default : Option String := none
  isArray : Bool := false
deriving DecidableEq

/-- The map-like extension of a record type (`mapProperties`). -/
structure MapProps where
  key : Member
  value : Member
  requiredKeys : List String := []
deriving DecidableEq

/-- A schema-worthy entity: record type, method parameter bag, union,
or enum, with exactly the attributes the generator reads. -/
inductive Element where
  | type (properties : List Member) (mapProperties : Option MapProps) (rules : List Rule)
  | method (name : String) (parameters : List Member)
  | union (members : List Member) (discriminator : Option String)
  | enum (values : List String)
deriving DecidableEq

/-- A worklist entry: an entity together with its assigned Name. -/
structure Schema where
  name : String
  element : Element
deriving DecidableEq

/-- One transport-level parameter binding of the HTTP metadata. -/
structure HttpParam where
  name : String
  location : String
deriving DecidableEq

/-- HTTP-binding metadata for one method. -/
structure HttpMethod where
  name : String
  parameters : List HttpParam
deriving DecidableEq

/-- The slice of the service consumed here: the HTTP-binding metadata
collaborator, which exposes per-method parameter locations. -/
structure Service where
  httpMethods : List HttpMethod := []
deriving DecidableEq

/-- Models basketry's `getHttpMethodByName` helper (external
collaborator): look up the HTTP metadata of a method by its name. -/
def getHttpMethodByName (svc : Service) (methodName : String) : Option HttpMethod :=
  svc.httpMethods.find? (fun m => m.name == methodName)

/-- Models basketry's `isRequired`: a member is required when it
carries the `required` rule. -/
def isRequired (m : Member) : Bool :=
  m.rules.any (fun r => r.id == "required")

/-- The `shouldCoerce` closure of `buildMemberSchema`: coerce only
method parameters whose transport binding is header, query, or path. -/
def shouldCoerce (svc : Service) (m : Member) (parent : Schema) : Bool :=
  match m.kind, parent.element with
  | some .parameter, .method methodName _ =>
    match getHttpMethodByName svc methodName with
    | none => false
    | some httpMethod =>
      match httpMethod.parameters.find? (fun p => camel p.name == camel m.name) with
      | none => false
      | some httpParam =>
        httpParam.location == "header" || httpParam.location == "query" ||
          httpParam.location == "path"
  | _, _ => false

/-- String-member branch of `buildMemberSchema` (source lines 294-341):
constant/enum dispatch, then length/pattern constraints, then default. -/
def stringSeg (m : Member) : List String :=
  (match m.constant, m.rules.find? (fun r => r.id == "string-enum") with
   | some c, _ => ["z.literal('" ++ c ++ "')"]
   | none, some enumRule =>
     ["z.enum(" ++ String.intercalate ", " (enumRule.values.map (fun v => "'" ++ v ++ "'")) ++ ")"]
   | none, none =>
     ["z.string()"] ++
     (match m.rules.find? (fun r => r.id == "string-min-length"),
            m.rules.find? (fun r => r.id == "string-max-length") with
      | some minRule, some maxRule =>
        if minRule.length = maxRule.length then
          ["length(" ++ toString minRule.length ++ ")"]
        else
          (if minRule.length = 1 then ["nonempty()"]
           else ["min(" ++ toString minRule.length ++ ")"]) ++
          ["max(" ++ toString maxRule.length ++ ")"]
      | some minRule, none =>
        if minRule.length = 1 then ["nonempty()"]
        else ["min(" ++ toString minRule.length ++ ")"]
      | none, some maxRule => ["max(" ++ toString maxRule.length ++ ")"]
      | none, none => []) ++
     (match m.rules.find? (fun r => r.id == "string-pattern") with
      | some patternRule => ["regex(/" ++ patternRule.pattern ++ "/)"]
      | none => [])) ++
  (match m.default with
   | some d => ["default('" ++ d ++ "')"]
   | none => [])

/-- Numeric-member branch of `buildMemberSchema` (source lines 342-396). -/
def numberSeg (coerce : Bool) (m : Member) : List String :=
  (match m.constant with
   | some c => ["z.literal(" ++ c ++ ")"]
   | none =>
     ["z" ++ (if coerce then ".coerce" else "") ++ ".number()"] ++
     (if m.typeName = "integer" ∨ m.typeName = "long" then ["int()"] else []) ++
     (match m.rules.find? (fun r => r.id == "number-gt") with
      | some r => if r.value = 0 then ["positive()"] else ["gt(" ++ toString r.value ++ ")"]
      | none => []) ++
     (match m.rules.find? (fun r => r.id == "number-gte") with
      | some r => if r.value = 0 then ["nonnegative()"] else ["gte(" ++ toString r.value ++ ")"]
      | none => []) ++
     (match m.rules.find? (fun r => r.id == "number-lt") with
      | some r => if r.value = 0 then ["negative()"] else ["lt(" ++ toString r.value ++ ")"]
      | none => []) ++
     (match m.rules.find? (fun r => r.id == "number-lte") with
      | some r => if r.value = 0 then ["nonpositive()"] else ["lte(" ++ toString r.value ++ ")"]
      | none => []) ++
     (match m.rules.find? (fun r => r.id == "number-multiple-of") with
      | some r => ["multipleOf(" ++ toString r.value ++ ")"]
      | none => [])) ++
  (match m.default with
   | some d => ["default(" ++ d ++ ")"]
   | none => [])

/-- Boolean-member branch of `buildMemberSchema` (source lines 397-412). -/
def booleanSeg (coerce : Bool) (m : Member) : List String :=
  (match m.constant with
   | some c => ["z.literal(" ++ c ++ ")"]
   | none => ["z" ++ (if coerce then ".coerce" else "") ++ ".boolean()"]) ++
  (match m.default with
   | some d => ["default(" ++ d ++ ")"]
   | none => [])

/-- The primitive-kind switch of `buildMemberSchema` (source lines
289-422).  An unrecognized primitive tag pushes nothing, exactly as the
source switch falls through. -/
def primitiveSeg (coerce : Bool) (m : Member) : List String :=
  if m.typeName = "null" then ["z.literal(null)"]
  else if m.typeName = "string" then stringSeg m
  else if m.typeName = "number" ∨ m.typeName = "integer" ∨ m.typeName = "long" ∨
          m.typeName = "float" ∨ m.typeName = "double" then numberSeg coerce m
  else if m.typeName = "boolean" then booleanSeg coerce m
  else if m.typeName = "date" ∨ m.typeName = "date-time" then ["z.coerce.date()"]
  else if m.typeName = "binary" ∨ m.typeName = "untyped" then ["z.any()"]
  else []

/-- Non-primitive branch of `buildMemberSchema` (source lines 423-434):
a self reference or a reference into the circular group becomes a lazy
reference, every other reference is direct. -/
def complexSeg (m : Member) (parentName : String) (circular : List Schema) : List String :=
  if camel m.typeName == camel parentName ||
      circular.any (fun s => camel s.name == camel m.typeName) then
    ["z.lazy(()=>" ++ pascal m.typeName ++ "Schema)"]
  else
    [pascal m.typeName ++ "Schema"]

/-- Array wrapper and item-count constraints (source lines 436-449). -/
def arraySeg (m : Member) : List String :=
  if m.isArray then
    ["array()"] ++
    (match m.rules.find? (fun r => r.id == "array-min-items") with
     | some r => if r.min = 1 then ["nonempty()"] else ["min(" ++ toString r.min ++ ")"]
     | none => []) ++
    (match m.rules.find? (fun r => r.id == "array-max-items") with
     | some r => ["max(" ++ toString r.max ++ ")"]
     | none => [])
  else []

/-- Optionality wrapper (source lines 451-462): map keys and map
values never get it, `preventOptional` suppresses it, and a primitive
member with a default does not need it. -/
def optionalSeg (m : Member) (preventOptional : Bool) : List String :=
  if !isRequired m &&
      (match m.kind with
       | none => true
       | some k => decide (k ≠ .mapKey ∧ k ≠ .mapValue)) then
    if !preventOptional && (!m.isPrimitive || m.default.isNone) then ["optional()"]
    else []
  else []

/-- `buildMemberSchema` as the ordered list of pushed operations
(the source's `schema` array before the final `join('.')`). -/
def buildMemberSchemaParts (svc : Service) (m : Member) (parent : Schema)
    (preventOptional : Bool) (circular : List Schema) : List String :=
  (if m.isPrimitive then primitiveSeg (shouldCoerce svc m parent) m
   else complexSeg m parent.name circular) ++
  arraySeg m ++ optionalSeg m preventOptional

/-- `buildMemberSchema` proper: the composed schema expression. -/
def buildMemberSchema (svc : Service) (m : Member) (parent : Schema)
    (preventOptional : Bool) (circular : List Schema) : String :=
  String.intercalate "." (buildMemberSchemaParts svc m parent preventOptional circular)

/-- `buildMember`: the single line yielded for one object field. -/
def buildMemberLine (svc : Service) (parent : Schema) (circular : List Schema)
    (m : Member) : String :=
  camel m.name ++ ": " ++ buildMemberSchema svc m parent false circular ++ ","

/-- `buildRequiredKey`: the single line yielded for one required map
key (the caller passes the already-camelized key name). -/
def buildRequiredKeyLine (svc : Service) (parent : Schema) (circular : List Schema)
    (keyName : String) (value : Member) : String :=
  keyName ++ ": " ++ buildMemberSchema svc value parent false circular ++ ","

/-- Max-key-count refinement lines (source lines 137-142). -/
def maxRefineSeg (r : Rule) : List String :=
  [".refine(",
   "  data => Object.keys(data).length <= " ++ toString r.max ++ ",",
   "  \x7b message: 'Object must have at most " ++ toString r.max ++ " keys' \x7d,",
   ")"]

/-- Min-key-count refinement lines (source lines 143-148). -/
def minRefineSeg (r : Rule) : List String :=
  [".refine(",
   "  data => Object.keys(data).length >= " ++ toString r.min ++ ",",
   "  \x7b message: 'Object must have at least " ++ toString r.min ++ " keys' \x7d,",
   ")"]

/-- Per-key validation pass (source lines 158-177): validate every key
not covered by a declared field against the key schema. -/
def superRefineSeg (propertiesNonempty : Bool) (keySetName schemaName : String) :
    List String :=
  [".superRefine((data, ctx) => \x7b",
   "  for (const key of Object.keys(data)) \x7b"] ++
  (if propertiesNonempty then
     ["    if (" ++ keySetName ++ ".has(key)) continue;", ""]
   else []) ++
  ["    const result = " ++ schemaName ++ ".safeParse(key);",
   "    if (result.success) continue;",
   "",
   "    for (const error of result.error.errors) \x7b",
   "      ctx.addIssue(\x7b",
   "        code: z.ZodIssueCode.custom,",
   "        message: `Invalid key: $\x7berror.message\x7d`,",
   "        path: [key],",
   "      \x7d);",
   "    \x7d",
   "  \x7d",
   "\x7d)"]

/-- Key-schema prelude of the record branch (source lines 66-79). -/
def typeKeyPrelude (svc : Service) (schema : Schema) (properties : List Member)
    (mapProperties : Option MapProps) : List String :=
  match mapProperties with
  | some mp =>
    if !mp.key.rules.isEmpty then
      (if !properties.isEmpty then
         ["const  __" ++ camel schema.name ++ "Keys = new Set([" ++
          String.intercalate ", " (properties.map (fun p => "'" ++ p.name ++ "'")) ++
          "]);"]
       else []) ++
      ["const  __" ++ pascal schema.name ++ "KeySchema = " ++
       buildMemberSchema svc mp.key schema false []]
    else []
  | none => []

/-- Structural core of the record branch (source lines 83-127): object
with declared fields and required keys plus optional catch-all, pure
record, or unconstrained record. -/
def typeStructural (svc : Service) (schema : Schema) (properties : List Member)
    (mapProperties : Option MapProps) (rules : List Rule) (circular : List Schema) :
    List String :=
  if !properties.isEmpty ||
      !(match mapProperties with | some mp => mp.requiredKeys | none => []).isEmpty then
    ["z.object(\x7b"] ++
    properties.map (buildMemberLine svc schema circular) ++
    (match mapProperties with
     | some mp =>
       mp.requiredKeys.map (fun k =>
         buildRequiredKeyLine svc schema circular (camel k) mp.value)
     | none => []) ++
    ["\x7d)"] ++
    (match mapProperties with
     | some mp =>
       if (match rules.find? (fun r => r.id == "object-max-properties") with
           | none => true
           | some r =>
             ((properties.length + mp.requiredKeys.length : Nat) : Int) < r.max) then
         [".catchall(" ++ buildMemberSchema svc mp.value schema false [] ++ ")"]
       else []
     | none => [])
  else
    match mapProperties with
    | some mp => ["z.record(" ++ buildMemberSchema svc mp.value schema false [] ++ ")"]
    | none => ["z.record(z.any())"]

/-- Key-count refinements of the record branch (source lines 129-149):
emitted only under the `mapProperties` guard. -/
def typeRefines (mapProperties : Option MapProps) (rules : List Rule) : List String :=
  match mapProperties with
  | some _ =>
    (match rules.find? (fun r => r.id == "object-max-properties") with
     | some r => maxRefineSeg r
     | none => []) ++
    (match rules.find? (fun r => r.id == "object-min-properties") with
     | some r => minRefineSeg r
     | none => [])
  | none => []

/-- Per-key validation of the record branch (source lines 151-178). -/
def typeKeyValidation (schema : Schema) (properties : List Member)
    (mapProperties : Option MapProps) : List String :=
  match mapProperties with
  | some mp =>
    if !mp.key.rules.isEmpty || !mp.key.isPrimitive then
      superRefineSeg (!properties.isEmpty)
        (" __" ++ camel schema.name ++ "Keys")
        (if mp.key.isPrimitive then " __" ++ pascal schema.name ++ "KeySchema"
         else pascal mp.key.typeName ++ "Schema")
    else []
  | none => []

/-- `buildSchema`: the sequence of lines yielded for one entity
(source lines 60-229). -/
def buildSchemaLines (svc : Service) (schema : Schema) (circular : List Schema) :
    List String :=
  match schema.element with
  | .type properties mapProperties rules =>
    typeKeyPrelude svc schema properties mapProperties ++
    ["export const " ++ pascal schema.name ++ "Schema = "] ++
    typeStructural svc schema properties mapProperties rules circular ++
    typeRefines mapProperties rules ++
    typeKeyValidation schema properties mapProperties
  | .method _ parameters =>
    ["export const " ++ pascal schema.name ++ "Schema = z.object(\x7b"] ++
    parameters.map (buildMemberLine svc schema circular) ++
    ["\x7d);"]
  | .union members discriminator =>
    (match members.filter (fun mm => !mm.isPrimitive) with
     | [m] =>
       ["export const " ++ pascal schema.name ++ "Schema = " ++
        pascal m.typeName ++ "Schema;"]
     | _ =>
       (match discriminator with
        | some d =>
          ["export const " ++ pascal schema.name ++ "Schema = z.discriminatedUnion('" ++
           camel d ++ "', ["]
        | none =>
          ["export const " ++ pascal schema.name ++ "Schema = z.union(["]) ++
       members.map (fun mm =>
         if mm.isPrimitive then buildMemberSchema svc mm schema true [] ++ ","
         else pascal mm.typeName ++ "Schema,") ++
       ["]);"])
  | .enum values =>
    ["export const " ++ pascal schema.name ++ "Schema = z.enum(["] ++
    values.map (fun v => "  '" ++ v ++ "',") ++
    ["]);"]

/-- Union kinds of the superseded module variant
(`src/src/schema-file.ts`), whose type model tags unions directly. -/
inductive OldUnionKind where
  | primitiveU
  | complexU
  | discriminatedU
deriving DecidableEq

/-- Union emission of the superseded module variant
(`src/src/schema-file.ts`, lines 62-90): a primitive union of more than
one member yields an explicit not-yet-supported marker comment instead
of member schemas. -/
def oldUnionLines (name : String) (kind : OldUnionKind)
    (memberTypeNames : List String) : List String :=
  match memberTypeNames with
  | [m] => ["export const " ++ pascal name ++ "Schema = " ++ pascal m ++ "Schema;"]
  | _ =>
    ["export const " ++ pascal name ++ "Schema = z." ++
     (if kind = .discriminatedU then "discriminatedUnion" else "union") ++ "(["] ++
    (if kind = .primitiveU then ["// Primitive unions are not yet supported"]
     else memberTypeNames.map (fun m => pascal m ++ "Schema,")) ++
    ["]);"]

/-- The direct complex dependencies of an entity (source lines
486-523): Names of all non-primitive members/variants/map-key/map-value
references, in source order. -/
def complexDeps (s : Schema) : List String :=
  match s.element with
  | .type properties mapProperties _ =>
    (properties.filter (fun p => !p.isPrimitive)).map (fun p => pascal p.typeName) ++
    (match mapProperties with
     | some mp => if mp.key.isPrimitive = false then [pascal mp.key.typeName] else []
     | none => []) ++
    (match mapProperties with
     | some mp => if mp.value.isPrimitive = false then [pascal mp.value.typeName] else []
     | none => [])
  | .method _ parameters =>
    (parameters.filter (fun p => !p.isPrimitive)).map (fun p => pascal p.typeName)
  | .union members _ =>
    (members.filter (fun m => !m.isPrimitive)).map (fun m => pascal m.typeName)
  | .enum _ => []

/-- Readiness test of one pass (source lines 525-528): no complex
dependencies, or every dependency Name already resolved or a
self-reference. -/
def isReady (sortedNames : List String) (s : Schema) : Bool :=
  (complexDeps s).isEmpty ||
    (complexDeps s).all (fun n => sortedNames.contains n || n == s.name)

/-- One step of the stable insertion used to model the JavaScript
stable `Array.prototype.sort` under the resolver's comparator
`(a, b) => a.name.localeCompare(b.name)`. -/
def insertSchema (a : Schema) : List Schema → List Schema
  | [] => [a]
  | b :: bs =>
    if localeCompare a.name b.name < 0 then a :: b :: bs
    else b :: insertSchema a bs

/-- Models `[...sortable].sort((a, b) => a.name.localeCompare(b.name))`:
a stable sort ascending by the locale comparison of Names. -/
def sortSchemas : List Schema → List Schema
  | [] => []
  | a :: rest => insertSchema a (sortSchemas rest)

/-- The loop of `sort` (source lines 479-550).  Each pass partitions
`unsorted` into ready (`sortable`) and not-ready (`unsortable`)
entities, appends the ready ones sorted by Name, records their Names,
and stalls — returning the remainder as circular — when the pending
length did not change. -/
def sortGo (sortedNames : List String) (sorted : List Schema)
    (unsorted : List Schema) : List Schema × List Schema :=
  if unsorted.isEmpty then (sorted, [])
  else
    if h : unsorted.length = (unsorted.filter (fun s => !isReady sortedNames s)).length then
      (sorted ++ sortSchemas (unsorted.filter (fun s => isReady sortedNames s)),
       unsorted.filter (fun s => !isReady sortedNames s))
    else
      sortGo
        (sortedNames ++
          (unsorted.filter (fun s => isReady sortedNames s)).map (fun s => s.name))
        (sorted ++ sortSchemas (unsorted.filter (fun s => isReady sortedNames s)))
        (unsorted.filter (fun s => !isReady sortedNames s))
termination_by unsorted.length
decreasing_by
  have hle := List.length_filter_le (fun s => !isReady sortedNames s) unsorted
  omega

/-- `sort` (source lines 468-553): resolve the emission order,
returning the ordered entities and the circular group. -/
def sort (entities : List Schema) : List Schema × List Schema :=
  sortGo [] [] entities

/-- Fuel-indexed computation companion of `sortGo`, used only to
evaluate the resolver on concrete worklists; `sortGoF_eq` shows it
agrees with `sortGo` whenever the fuel covers the pending length. -/
def sortGoF (fuel : Nat) (sortedNames : List String) (sorted : List Schema)
    (unsorted : List Schema) : List Schema × List Schema :=
  match fuel with
  | 0 => (sorted, [])
  | fuel + 1 =>
    if unsorted.isEmpty then (sorted, [])
    else
      if unsorted.length = (unsorted.filter (fun s => !isReady sortedNames s)).length then
        (sorted ++ sortSchemas (unsorted.filter (fun s => isReady sortedNames s)),
         unsorted.filter (fun s => !isReady sortedNames s))
      else
        sortGoF fuel
          (sortedNames ++
            (unsorted.filter (fun s => isReady sortedNames s)).map (fun s => s.name))
          (sorted ++ sortSchemas (unsorted.filter (fun s => isReady sortedNames s)))
          (unsorted.filter (fun s => !isReady sortedNames s))

/-- The number of passes the resolver's loop executes on a given
pending list: an instrumentation mirror of `sortGo`'s recursion
structure. -/
def sortPasses (sortedNames : List String) (unsorted : List Schema) : Nat :=
  if unsorted.isEmpty then 0
  else
    if h : unsorted.length = (unsorted.filter (fun s => !isReady sortedNames s)).length then
      1
    else
      1 + sortPasses
        (sortedNames ++
          (unsorted.filter (fun s => isReady sortedNames s)).map (fun s => s.name))
        (unsorted.filter (fun s => !isReady sortedNames s))
termination_by unsorted.length
decreasing_by
  have hle := List.length_filter_le (fun s => !isReady sortedNames s) unsorted
  omega

/-- The dependency-graph edge used to state cycle claims: `a` directly
references `b` as a complex dependency, excluding self-references. -/
def depEdge (a b : Schema) : Prop :=
  b.name ∈ complexDeps a ∧ a.name ≠ b.name

/-- The ordering guarantee of the resolver's output: each entity's
complex dependencies (other than self-references) are satisfied by
entities appearing strictly earlier in the list. -/
def topoOk (L : List Schema) : Prop :=
  ∀ (i : Nat) (hi : i < L.length),
    ∀ d ∈ complexDeps (L.get ⟨i, hi⟩), d ≠ (L.get ⟨i, hi⟩).name →
      ∃ (j : Nat) (hj : j < L.length), j < i ∧ (L.get ⟨j, hj⟩).name = d

/-- A readiness pass of the resolver: the entities of `u` that are
ready given `sortedNames`, in the order the resolver appends them. -/
def readyPass (sortedNames : List String) (u : List Schema) : List Schema :=
  sortSchemas (u.filter (fun s => isReady sortedNames s))

/-- The ordering in which one pass's ready entities are appended:
ascending under the modelled locale comparison of Names. -/
def nameLe (a b : Schema) : Prop := localeCompare a.name b.name ≤ 0

/-- The referencing member of the acyclic two-entity example. -/
def exARef : Member :=
  { kind := some MemberKind.property, name := "b", isPrimitive := false,
    typeName := "B" }

/-- Acyclic two-entity example: `exA` references `exB`, `exB` is a
dependency-free enum. -/
def exA : Schema := ⟨"A", .type [exARef] none []⟩

/-- The referenced entity of the acyclic example. -/
def exB : Schema := ⟨"B", .enum []⟩

/-- Member of `cycA` referencing `cycB`. -/
def cycARef : Member :=
  { kind := some MemberKind.property, name := "b", isPrimitive := false,
    typeName := "B" }

/-- Member of `cycB` referencing `cycA`. -/
def cycBRef : Member :=
  { kind := some MemberKind.property, name := "a", isPrimitive := false,
    typeName := "A" }

/-- First entity of the two-entity cycle example. -/
def cycA : Schema := ⟨"A", .type [cycARef] none []⟩

/-- Second entity of the two-entity cycle example. -/
def cycB : Schema := ⟨"B", .type [cycBRef] none []⟩

/-- HTTP metadata of the coercion example: one method with a
query-bound parameter `q` and a body-bound parameter `b`. -/
def coerceSvc : Service :=
  ⟨[⟨"getThing", [⟨"q", "query"⟩, ⟨"b", "body"⟩]⟩]⟩

/-- Query-bound numeric parameter of the coercion example. -/
def coerceQ : Member :=
  { kind := some MemberKind.parameter, name := "q", isPrimitive := true,
    typeName := "number" }

/-- Body-bound numeric parameter of the coercion example. -/
def coerceB : Member :=
  { kind := some MemberKind.parameter, name := "b", isPrimitive := true,
    typeName := "number" }

/-- Method parameter bag of the coercion example. -/
def coerceParent : Schema :=
  ⟨"GetThingParams", .method "getThing" [coerceQ, coerceB]⟩

/-- String member with only `min-length = 1`. -/
def strMin1 : Member :=
  { isPrimitive := true, typeName := "string",
    rules := [{ id := "string-min-length", length := 1 }] }

/-- String member with `min-length = max-length = 3`. -/
def strLen3 : Member :=
  { isPrimitive := true, typeName := "string",
    rules := [{ id := "string-min-length", length := 3 },
              { id := "string-max-length", length := 3 }] }

/-- Map extension used by the key-count refinement witness. -/
def keyMP : MapProps :=
  { key := { kind := some MemberKind.mapKey, isPrimitive := true, typeName := "string" },
    value := { kind := some MemberKind.mapValue, isPrimitive := true, typeName := "string" } }

lemma sortGo_nil (names : List String) (acc : List Schema) :
    sortGo names acc [] = (acc, []) := by
  rw [sortGo]; rfl

lemma sortGo_stall (names : List String) (acc : List Schema) (u : List Schema)
    (hne : u ≠ [])
    (h : u.length = (u.filter (fun s => !isReady names s)).length) :
    sortGo names acc u =
      (acc ++ sortSchemas (u.filter (fun s => isReady names s)),
       u.filter (fun s => !isReady names s)) := by
  rw [sortGo]
  rw [if_neg (by simpa [List.isEmpty_iff] using hne), dif_pos h]

lemma sortGo_step (names : List String) (acc : List Schema) (u : List Schema)
    (hne : u ≠ [])
    (h : ¬ u.length = (u.filter (fun s => !isReady names s)).length) :
    sortGo names acc u =
      sortGo
        (names ++ (u.filter (fun s => isReady names s)).map (fun s => s.name))
        (acc ++ sortSchemas (u.filter (fun s => isReady names s)))
        (u.filter (fun s => !isReady names s)) := by
  rw [sortGo]
  rw [if_neg (by simpa [List.isEmpty_iff] using hne), dif_neg h]

lemma sortPasses_nil (names : List String) : sortPasses names [] = 0 := by
  rw [sortPasses]; rfl

lemma sortPasses_stall (names : List String) (u : List Schema) (hne : u ≠ [])
    (h : u.length = (u.filter (fun s => !isReady names s)).length) :
    sortPasses names u = 1 := by
  rw [sortPasses]
  rw [if_neg (by simpa [List.isEmpty_iff] using hne), dif_pos h]

lemma sortPasses_step (names : List String) (u : List Schema) (hne : u ≠ [])
    (h : ¬ u.length = (u.filter (fun s => !isReady names s)).length) :
    sortPasses names u =
      1 + sortPasses
        (names ++ (u.filter (fun s => isReady names s)).map (fun s => s.name))
        (u.filter (fun s => !isReady names s)) := by
  rw [sortPasses]
  rw [if_neg (by simpa [List.isEmpty_iff] using hne), dif_neg h]

/-- The fuel companion agrees with `sortGo` whenever the fuel covers
the pending length; together with `sort_eval` this makes the resolver
evaluable on concrete worklists. -/
lemma sortGo_eq_sortGoF : ∀ (fuel : Nat) (names : List String)
    (acc : List Schema) (u : List Schema), u.length ≤ fuel →
    sortGo names acc u = sortGoF fuel names acc u := by
  intro fuel
  induction fuel with
  | zero =>
    intro names acc u hu
    have : u = [] := List.eq_nil_of_length_eq_zero (Nat.le_zero.mp hu)
    subst this
    rw [sortGo_nil]; rfl
  | succ fuel ih =>
    intro names acc u hu
    by_cases hne : u = []
    · subst hne; rw [sortGo_nil]; rfl
    · by_cases h : u.length = (u.filter (fun s => !isReady names s)).length
      · rw [sortGo_stall names acc u hne h]
        rw [sortGoF]
        rw [if_neg (by simpa [List.isEmpty_iff] using hne), if_pos h]
      · rw [sortGo_step names acc u hne h]
        rw [sortGoF]
        rw [if_neg (by simpa [List.isEmpty_iff] using hne), if_neg h]
        apply ih
        have hle := List.length_filter_le (fun s => !isReady names s) u
        omega

/-- Evaluation form of `sort`. -/
lemma sort_eval (entities : List Schema) :
    sort entities = sortGoF entities.length [] [] entities :=
  sortGo_eq_sortGoF entities.length [] [] entities le_rfl

lemma insertSchema_perm (a : Schema) (l : List Schema) :
    List.Perm (insertSchema a l) (a :: l) := by
  induction l with
  | nil => simp [insertSchema]
  | cons b bs ih =>
    rw [insertSchema]
    by_cases h : localeCompare a.name b.name < 0
    · rw [if_pos h]
    · rw [if_neg h]
      exact (ih.cons b).trans (List.Perm.swap a b bs)

lemma sortSchemas_perm (l : List Schema) : List.Perm (sortSchemas l) l := by
  induction l with
  | nil => simp [sortSchemas]
  | cons a rest ih =>
    rw [sortSchemas]
    exact (insertSchema_perm a (sortSchemas rest)).trans (ih.cons a)

lemma pass_append_perm (names : List String) (acc : List Schema) (u : List Schema) :
    List.Perm
      ((acc ++ sortSchemas (u.filter (fun s => isReady names s))) ++
        u.filter (fun s => !isReady names s))
      (acc ++ u) := by
  rw [List.append_assoc]
  apply List.Perm.append_left
  exact ((sortSchemas_perm _).append_right _).trans
    (List.filter_append_perm (fun s => isReady names s) u)

lemma sortGo_append_perm : ∀ (n : Nat) (u : List Schema) (names : List String)
    (acc : List Schema), u.length = n →
    List.Perm ((sortGo names acc u).1 ++ (sortGo names acc u).2) (acc ++ u) := by
  intro n
  induction n using Nat.strong_induction_on with
  | _ n ih =>
    intro u names acc hu
    by_cases hne : u = []
    · subst hne; rw [sortGo_nil]
    · by_cases h : u.length = (u.filter (fun s => !isReady names s)).length
      · rw [sortGo_stall names acc u hne h]
        exact pass_append_perm names acc u
      · rw [sortGo_step names acc u hne h]
        have hlt : (u.filter (fun s => !isReady names s)).length < n := by
          have hle := List.length_filter_le (fun s => !isReady names s) u
          omega
        have hrec := ih _ hlt (u.filter (fun s => !isReady names s))
          (names ++ (u.filter (fun s => isReady names s)).map (fun s => s.name))
          (acc ++ sortSchemas (u.filter (fun s => isReady names s))) rfl
        exact hrec.trans (pass_append_perm names acc u)

/-- C10: for every input worklist — cyclic or not — the concatenation
of the resolver's sorted list and circular list is a permutation of the
input: nothing is dropped or duplicated. -/
theorem resolver_partition_perm (entities : List Schema) :
    List.Perm ((sort entities).1 ++ (sort entities).2) entities :=
  sortGo_append_perm entities.length entities [] [] rfl

lemma sortPasses_le : ∀ (n : Nat) (u : List Schema) (names : List String),
    u.length = n → sortPasses names u ≤ u.length := by
  intro n
  induction n using Nat.strong_induction_on with
  | _ n ih =>
    intro u names hu
    by_cases hne : u = []
    · subst hne; rw [sortPasses_nil]; simp
    · by_cases h : u.length = (u.filter (fun s => !isReady names s)).length
      · rw [sortPasses_stall names u hne h]
        have : 0 < u.length := List.length_pos.mpr hne
        omega
      · rw [sortPasses_step names u hne h]
        have hle := List.length_filter_le (fun s => !isReady names s) u
        have hlt : (u.filter (fun s => !isReady names s)).length < n := by omega
        have := ih _ hlt (u.filter (fun s => !isReady names s))
          (names ++ (u.filter (fun s => isReady names s)).map (fun s => s.name)) rfl
        omega

lemma stall_ready_filter_nil (names : List String) (u : List Schema)
    (h : u.length = (u.filter (fun s => !isReady names s)).length) :
    u.filter (fun s => isReady names s) = [] := by
  have hall : ∀ s ∈ u, (!isReady names s) = true :=
    List.filter_length_eq_length.mp h.symm
  rw [List.filter_eq_nil_iff]
  intro s hs
  have := hall s hs
  simp at this
  simp [this]

/-- C4: the resolver always terminates within `|entities|` passes, and
every pass on a nonempty pending list either strictly shrinks it or is
a stalled pass that returns the remaining entities as circular. -/
theorem resolver_pass_bound (entities : List Schema) :
    sortPasses [] entities ≤ entities.length ∧
    ∀ (names : List String) (acc : List Schema) (u : List Schema), u ≠ [] →
      (u.filter (fun s => !isReady names s)).length < u.length ∨
        sortGo names acc u = (acc, u) := by
  constructor
  · exact sortPasses_le entities.length entities [] rfl
  · intro names acc u hne
    by_cases h : u.length = (u.filter (fun s => !isReady names s)).length
    · right
      rw [sortGo_stall names acc u hne h]
      rw [stall_ready_filter_nil names u h]
      have hu : u.filter (fun s => !isReady names s) = u := by
        rw [List.filter_eq_self]
        intro s hs
        have hall : ∀ s ∈ u, (!isReady names s) = true :=
          List.filter_length_eq_length.mp h.symm
        exact hall s hs
      rw [hu]
      simp [sortSchemas]
    · left
      have hle := List.length_filter_le (fun s => !isReady names s) u
      omega

lemma map_nodup_inj {α β : Type} (f : α → β) :
    ∀ (l : List α), (l.map f).Nodup →
      ∀ a ∈ l, ∀ b ∈ l, f a = f b → a = b := by
  intro l
  induction l with
  | nil => intro _ a ha; cases ha
  | cons x xs ih =>
    intro hnd a ha b hb hf
    rw [List.map_cons, List.nodup_cons] at hnd
    rcases List.mem_cons.mp ha with ha' | ha' <;>
      rcases List.mem_cons.mp hb with hb' | hb'
    · rw [ha', hb']
    · exfalso
      apply hnd.1
      rw [ha'] at hf
      rw [hf]
      exact List.mem_map_of_mem f hb'
    · exfalso
      apply hnd.1
      rw [hb'] at hf
      rw [← hf]
      exact List.mem_map_of_mem f ha'
    · exact ih hnd.2 a ha' b hb' hf

lemma not_ready_of_dep (names : List String) (s : Schema) (d : String)
    (hd : d ∈ complexDeps s) (hdn : d ∉ names) (hds : d ≠ s.name) :
    isReady names s = false := by
  rw [isReady]
  simp only [Bool.or_eq_false_iff]
  constructor
  · rw [List.isEmpty_eq_false_iff_exists_mem]
    exact ⟨d, hd⟩
  · rw [List.all_eq_false]
    refine ⟨d, hd, ?_⟩
    simp [hdn, hds]

lemma sortGo_cycle_circular
    (A B : Schema) (hABd : B.name ∈ complexDeps A) (hBAd : A.name ∈ complexDeps B)
    (hab : A.name ≠ B.name) :
    ∀ (n : Nat) (u : List Schema) (names : List String) (acc : List Schema),
      u.length = n →
      (u.map (fun s => s.name)).Nodup →
      A ∈ u → B ∈ u → A.name ∉ names → B.name ∉ names →
      A ∈ (sortGo names acc u).2 ∧ B ∈ (sortGo names acc u).2 := by
  intro n
  induction n using Nat.strong_induction_on with
  | _ n ih =>
    intro u names acc hu hnd hAu hBu hAn hBn
    have hne : u ≠ [] := fun h => by subst h; cases hAu
    have hnrA : isReady names A = false :=
      not_ready_of_dep names A B.name hABd hBn (fun h => hab h.symm)
    have hnrB : isReady names B = false :=
      not_ready_of_dep names B A.name hBAd hAn hab
    by_cases h : u.length = (u.filter (fun s => !isReady names s)).length
    · rw [sortGo_stall names acc u hne h]
      constructor
      · exact List.mem_filter.mpr ⟨hAu, by simp [hnrA]⟩
      · exact List.mem_filter.mpr ⟨hBu, by simp [hnrB]⟩
    · rw [sortGo_step names acc u hne h]
      have hlt : (u.filter (fun s => !isReady names s)).length < n := by
        have hle := List.length_filter_le (fun s => !isReady names s) u
        omega
      apply ih _ hlt _ _ _ rfl
      · exact List.Nodup.sublist ((List.filter_sublist u).map _) hnd
      · exact List.mem_filter.mpr ⟨hAu, by simp [hnrA]⟩
      · exact List.mem_filter.mpr ⟨hBu, by simp [hnrB]⟩
      · intro hmem
        rcases List.mem_append.mp hmem with hmem | hmem
        · exact hAn hmem
        · rcases List.mem_map.mp hmem with ⟨C, hC, hCn⟩
          have hCu : C ∈ u := (List.mem_filter.mp hC).1
          have hCr : isReady names C = true := by
            have := (List.mem_filter.mp hC).2
            simpa using this
          have : C = A := map_nodup_inj _ u hnd C hCu A hAu hCn
          rw [this] at hCr
          rw [hnrA] at hCr
          cases hCr
      · intro hmem
        rcases List.mem_append.mp hmem with hmem | hmem
        · exact hBn hmem
        · rcases List.mem_map.mp hmem with ⟨C, hC, hCn⟩
          have hCu : C ∈ u := (List.mem_filter.mp hC).1
          have hCr : isReady names C = true := by
            have := (List.mem_filter.mp hC).2
            simpa using this
          have : C = B := map_nodup_inj _ u hnd C hCu B hBu hCn
          rw [this] at hCr
          rw [hnrB] at hCr
          cases hCr

/-- C2: in any worklist containing a two-entity reference cycle
`A → B → A` (with distinct, unique Names), both entities land in the
resolver's circular list, and the rule mapper — invoked as `body` does
for circular entities, with that circular list — renders a member
referencing the partner as a lazy reference rather than a direct
schema reference. -/
theorem cycle_members_circular_and_lazy
    (svc : Service) (l : List Schema) (A B : Schema) (mA mB : Member)
    (hA : A ∈ l) (hB : B ∈ l)
    (hnd : (l.map (fun s => s.name)).Nodup)
    (hABd : B.name ∈ complexDeps A) (hBAd : A.name ∈ complexDeps B)
    (hab : A.name ≠ B.name)
    (hmA1 : mA.isPrimitive = false) (hmA2 : camel mA.typeName = camel B.name)
    (hmB1 : mB.isPrimitive = false) (hmB2 : camel mB.typeName = camel A.name) :
    A ∈ (sort l).2 ∧ B ∈ (sort l).2 ∧
    buildMemberSchemaParts svc mA A false (sort l).2 =
      ("z.lazy(()=>" ++ pascal mA.typeName ++ "Schema)") ::
        (arraySeg mA ++ optionalSeg mA false) ∧
    buildMemberSchemaParts svc mB B false (sort l).2 =
      ("z.lazy(()=>" ++ pascal mB.typeName ++ "Schema)") ::
        (arraySeg mB ++ optionalSeg mB false) := by
  have hcirc := sortGo_cycle_circular A B hABd hBAd hab l.length l [] [] rfl hnd
    hA hB (List.not_mem_nil _) (List.not_mem_nil _)
  have hAc : A ∈ (sort l).2 := hcirc.1
  have hBc : B ∈ (sort l).2 := hcirc.2
  have hBany : ((sort l).2.any (fun s => camel s.name == camel mA.typeName)) = true :=
    List.any_eq_true.mpr ⟨B, hBc, by simp [hmA2]⟩
  have hAany : ((sort l).2.any (fun s => camel s.name == camel mB.typeName)) = true :=
    List.any_eq_true.mpr ⟨A, hAc, by simp [hmB2]⟩
  refine ⟨hAc, hBc, ?_, ?_⟩
  · rw [buildMemberSchemaParts, if_neg (by simp [hmA1])]
    rw [complexSeg, if_pos (by simp [hBany])]
    rfl
  · rw [buildMemberSchemaParts, if_neg (by simp [hmB1])]
    rw [complexSeg, if_pos (by simp [hAany])]
    rfl

lemma exists_closed_walk (P : List Schema) (hne : P ≠ [])
    (hstep : ∀ s ∈ P, ∃ t, t ∈ P ∧ depEdge s t) :
    ∃ x p, x ∈ P ∧ (∀ y ∈ p, y ∈ P) ∧ List.Chain depEdge x (p ++ [x]) := by
  classical
  obtain ⟨s₀, hs₀⟩ := List.exists_mem_of_ne_nil P hne
  set f : Schema → Schema :=
    fun s => if h : s ∈ P then (hstep s h).choose else s₀ with hfdef
  have hf : ∀ s, s ∈ P → f s ∈ P ∧ depEdge s (f s) := by
    intro s h
    rw [hfdef]
    simp only [dif_pos h]
    exact ⟨(hstep s h).choose_spec.1, (hstep s h).choose_spec.2⟩
  set w : Nat → Schema := fun n => f^[n] s₀ with hwdef
  have hwsucc : ∀ n, w (n + 1) = f (w n) := by
    intro n
    rw [hwdef]
    exact Function.iterate_succ_apply' f n s₀
  have hwP : ∀ n, w n ∈ P := by
    intro n
    induction n with
    | zero => exact hs₀
    | succ k ihk => rw [hwsucc k]; exact (hf _ ihk).1
  have hwE : ∀ n, depEdge (w n) (w (n + 1)) := by
    intro n
    rw [hwsucc n]
    exact (hf _ (hwP n)).2
  have hchain : ∀ (len start : Nat),
      List.Chain depEdge (w start) ((List.range' (start + 1) len 1).map w) := by
    intro len
    induction len with
    | zero => intro start; exact List.Chain.nil
    | succ k ihk =>
      intro start
      rw [List.range'_succ, List.map_cons]
      exact List.Chain.cons (hwE start) (ihk (start + 1))
  suffices haux : ∀ a b : Nat, a < b → w a = w b →
      ∃ x p, x ∈ P ∧ (∀ y ∈ p, y ∈ P) ∧ List.Chain depEdge x (p ++ [x]) by
    set g : Fin (P.length + 1) → Fin P.length :=
      fun i => ⟨P.indexOf (w i), List.indexOf_lt_length.mpr (hwP i)⟩ with hgdef
    obtain ⟨i, j, hij, hgij⟩ := Fintype.exists_ne_map_eq_of_card_lt g (by simp)
    have hidx : P.indexOf (w i) = P.indexOf (w j) := by
      have := congrArg Fin.val hgij
      simpa [hgdef] using this
    have hwij : w i = w j := (List.indexOf_inj (hwP i) (hwP j)).mp hidx
    have hvne : (i : Nat) ≠ (j : Nat) := fun h => hij (Fin.ext h)
    rcases Nat.lt_or_gt_of_ne hvne with h | h
    · exact haux i j h hwij
    · exact haux j i h hwij.symm
  intro a b hab hw
  refine ⟨w a, (List.range' (a + 1) (b - a - 1) 1).map w, hwP a, ?_, ?_⟩
  · intro y hy
    rcases List.mem_map.mp hy with ⟨k, _, hk⟩
    rw [← hk]
    exact hwP k
  · have hsplit : List.range' (a + 1) (b - a) 1 =
        List.range' (a + 1) (b - a - 1) 1 ++ [b] := by
      have h1 : b - a = (b - a - 1) + 1 := by omega
      rw [h1, List.range'_concat]
      congr 1
      simp
      omega
    have := hchain (b - a) a
    rw [hsplit, List.map_append] at this
    simpa [hw] using this

lemma topoOk_append (acc L2 : List Schema) (hacc : topoOk acc)
    (hnew : ∀ e ∈ L2, ∀ d ∈ complexDeps e, d ≠ e.name →
      ∃ (j : Nat) (hj : j < acc.length), (acc.get ⟨j, hj⟩).name = d) :
    topoOk (acc ++ L2) := by
  intro i hi d hd hdne
  by_cases hia : i < acc.length
  · have hgl : (acc ++ L2).get ⟨i, hi⟩ = acc.get ⟨i, hia⟩ := by
      simp [List.getElem_append_left hia]
    rw [hgl] at hd hdne
    obtain ⟨j, hj, hji, hjn⟩ := hacc i hia d hd hdne
    refine ⟨j, by simp; omega, hji, ?_⟩
    have : (acc ++ L2).get ⟨j, by simp; omega⟩ = acc.get ⟨j, hj⟩ := by
      simp [List.getElem_append_left hj]
    rw [this, hjn]
  · have hile : acc.length ≤ i := Nat.le_of_not_lt hia
    have hi2 : i - acc.length < L2.length := by
      simp at hi
      omega
    have hgl : (acc ++ L2).get ⟨i, hi⟩ = L2.get ⟨i - acc.length, hi2⟩ := by
      simp [List.getElem_append_right hile]
    rw [hgl] at hd hdne
    have hmem : L2.get ⟨i - acc.length, hi2⟩ ∈ L2 := List.get_mem L2 _ _
    obtain ⟨j, hj, hjn⟩ := hnew _ hmem d hd hdne
    refine ⟨j, by simp; omega, by omega, ?_⟩
    have : (acc ++ L2).get ⟨j, by simp; omega⟩ = acc.get ⟨j, hj⟩ := by
      simp [List.getElem_append_left hj]
    rw [this, hjn]

lemma ready_dep_mem (names : List String) (s : Schema) (h : isReady names s = true)
    (d : String) (hd : d ∈ complexDeps s) (hdne : d ≠ s.name) : d ∈ names := by
  simp only [isReady, Bool.or_eq_true, List.all_eq_true, List.isEmpty_iff] at h
  rcases h with h | h
  · rw [h] at hd; cases hd
  · have := h d hd
    simpa [hdne] using this

lemma unready_dep (names : List String) (s : Schema) (h : isReady names s = false) :
    ∃ d ∈ complexDeps s, d ∉ names ∧ d ≠ s.name := by
  simp only [isReady, Bool.or_eq_false_iff, List.all_eq_false] at h
  obtain ⟨h1, d, hd, hdf⟩ := h
  refine ⟨d, hd, ?_⟩
  simpa using hdf

lemma sortGo_acyclic_main
    (l : List Schema)
    (hclosed : ∀ s ∈ l, ∀ d ∈ complexDeps s, d ≠ s.name → ∃ t, t ∈ l ∧ t.name = d)
    (hacyc : ¬ ∃ x p, x ∈ l ∧ (∀ y ∈ p, y ∈ l) ∧ List.Chain depEdge x (p ++ [x])) :
    ∀ (n : Nat) (u acc : List Schema) (names : List String), u.length = n →
      u.Sublist l →
      List.Perm (acc ++ u) l →
      List.Perm names (acc.map (fun s => s.name)) →
      topoOk acc →
      (sortGo names acc u).2 = [] ∧ List.Perm (sortGo names acc u).1 l ∧
        topoOk (sortGo names acc u).1 := by
  intro n
  induction n using Nat.strong_induction_on with
  | _ n ih =>
    intro u acc names hu hsub hperm hnames hacc
    by_cases hne : u = []
    · subst hne
      rw [sortGo_nil]
      exact ⟨rfl, by simpa using hperm, hacc⟩
    · by_cases h : u.length = (u.filter (fun s => !isReady names s)).length
      · exfalso
        have hall : ∀ s ∈ u, isReady names s = false := by
          intro s hs
          have := List.filter_length_eq_length.mp h.symm s hs
          simpa using this
        have hstep : ∀ s ∈ u, ∃ t, t ∈ u ∧ depEdge s t := by
          intro s hs
          obtain ⟨d, hd, hdn, hdne⟩ := unready_dep names s (hall s hs)
          obtain ⟨t, htl, htn⟩ := hclosed s (hsub.subset hs) d hd hdne
          refine ⟨t, ?_, ?_, ?_⟩
          · by_contra htnu
            have htacc : t ∈ acc := by
              have : t ∈ acc ++ u := hperm.mem_iff.mpr htl
              rcases List.mem_append.mp this with h' | h'
              · exact h'
              · exact absurd h' htnu
            apply hdn
            apply hnames.mem_iff.mpr
            rw [← htn]
            exact List.mem_map_of_mem _ htacc
          · rw [htn]; exact hd
          · rw [htn]; exact fun hcontra => hdne hcontra.symm
        obtain ⟨x, p, hx, hp, hch⟩ := exists_closed_walk u hne hstep
        exact hacyc ⟨x, p, hsub.subset hx, fun y hy => hsub.subset (hp y hy), hch⟩
      · rw [sortGo_step names acc u hne h]
        have hlt : (u.filter (fun s => !isReady names s)).length < n := by
          have hle := List.length_filter_le (fun s => !isReady names s) u
          omega
        apply ih _ hlt _ _ _ rfl
        · exact (List.filter_sublist u).trans hsub
        · exact (pass_append_perm names acc u).trans hperm
        · rw [List.map_append]
          exact hnames.append (((sortSchemas_perm _).map (fun s => s.name)).symm)
        · apply topoOk_append _ _ hacc
          intro e he d hd hdne
          have hesort : e ∈ u.filter (fun s => isReady names s) :=
            (sortSchemas_perm _).subset he
          have her : isReady names e = true := by
            have := (List.mem_filter.mp hesort).2
            simpa using this
          have hdm : d ∈ names := ready_dep_mem names e her d hd hdne
          have : d ∈ acc.map (fun s => s.name) := hnames.mem_iff.mp hdm
          obtain ⟨t, ht, htn⟩ := List.mem_map.mp this
          obtain ⟨j, hj, hjt⟩ := List.mem_iff_getElem.mp ht
          refine ⟨j, hj, ?_⟩
          have : acc.get ⟨j, hj⟩ = t := hjt
          rw [this, htn]

/-- C1: on a closed worklist whose (self-reference-free) complex
dependency graph has no cycles, the resolver returns an empty circular
list and an ordering of all input entities in which every complex
dependency of an entity is emitted strictly before it. -/
theorem resolver_acyclic_correct (l : List Schema)
    (hclosed : ∀ s ∈ l, ∀ d ∈ complexDeps s, d ≠ s.name → ∃ t, t ∈ l ∧ t.name = d)
    (hacyc : ¬ ∃ x p, x ∈ l ∧ (∀ y ∈ p, y ∈ l) ∧ List.Chain depEdge x (p ++ [x])) :
    (sort l).2 = [] ∧ List.Perm (sort l).1 l ∧ topoOk (sort l).1 := by
  apply sortGo_acyclic_main l hclosed hacyc l.length l [] [] rfl
    (List.Sublist.refl l) (by simp) (by simp)
  intro i hi
  simp at hi

lemma natCompare_swap (a b : Nat) : compare a b = (compare b a).swap := by
  rcases Nat.lt_trichotomy a b with h | h | h
  · rw [Nat.compare_eq_lt.mpr h, Nat.compare_eq_gt.mpr h]; rfl
  · rw [h, Nat.compare_eq_eq.mpr rfl]; rfl
  · rw [Nat.compare_eq_gt.mpr h, Nat.compare_eq_lt.mpr h]; rfl

lemma ordering_then_swap (o1 o2 : Ordering) :
    (o1.then o2).swap = o1.swap.then o2.swap := by
  cases o1 <;> cases o2 <;> rfl

lemma ordering_then_eq (o1 o2 : Ordering) :
    o1.then o2 = .eq ↔ o1 = .eq ∧ o2 = .eq := by
  cases o1 <;> simp [Ordering.then]

lemma ordering_then_ne_gt (o1 o2 : Ordering) :
    o1.then o2 ≠ .gt ↔ o1 = .lt ∨ (o1 = .eq ∧ o2 ≠ .gt) := by
  cases o1 <;> simp [Ordering.then]

lemma ordListNat_swap : ∀ (x y : List Nat), ordListNat x y = (ordListNat y x).swap := by
  intro x
  induction x with
  | nil => intro y; cases y <;> rfl
  | cons a as ih =>
    intro y
    cases y with
    | nil => rfl
    | cons b bs =>
      show (compare a b).then (ordListNat as bs) = ((compare b a).then (ordListNat bs as)).swap
      rw [ordering_then_swap, ← natCompare_swap, ih bs]

lemma ordListNat_eq_iff : ∀ (x y : List Nat), ordListNat x y = .eq ↔ x = y := by
  intro x
  induction x with
  | nil => intro y; cases y <;> simp [ordListNat]
  | cons a as ih =>
    intro y
    cases y with
    | nil => simp [ordListNat]
    | cons b bs =>
      show (compare a b).then (ordListNat as bs) = .eq ↔ _
      rw [ordering_then_eq, Nat.compare_eq_eq, ih bs]
      simp

lemma ordListNat_lt_trans : ∀ (x y z : List Nat),
    ordListNat x y = .lt → ordListNat y z = .lt → ordListNat x z = .lt := by
  intro x
  induction x with
  | nil =>
    intro y z h1 h2
    cases z with
    | nil =>
      exfalso
      cases y with
      | nil => exact absurd h1 (by simp [ordListNat])
      | cons b bs => exact absurd h2 (by simp [ordListNat])
    | cons c cs => rfl
  | cons a as ih =>
    intro y z h1 h2
    cases y with
    | nil => exact absurd h1 (by simp [ordListNat])
    | cons b bs =>
      cases z with
      | nil => exact absurd h2 (by simp [ordListNat])
      | cons c cs =>
        show (compare a c).then (ordListNat as cs) = .lt
        have h1' : (compare a b).then (ordListNat as bs) = .lt := h1
        have h2' : (compare b c).then (ordListNat bs cs) = .lt := h2
        cases hab : compare a b with
        | gt => rw [hab] at h1'; exact absurd h1' (by simp [Ordering.then])
        | lt =>
          cases hbc : compare b c with
          | gt => rw [hbc] at h2'; exact absurd h2' (by simp [Ordering.then])
          | lt =>
            rw [Nat.compare_eq_lt.mpr
              (Nat.lt_trans (Nat.compare_eq_lt.mp hab) (Nat.compare_eq_lt.mp hbc))]
            rfl
          | eq =>
            rw [Nat.compare_eq_lt.mpr
              ((Nat.compare_eq_eq.mp hbc) ▸ (Nat.compare_eq_lt.mp hab))]
            rfl
        | eq =>
          rw [hab] at h1'
          have h1r : ordListNat as bs = .lt := h1'
          cases hbc : compare b c with
          | gt => rw [hbc] at h2'; exact absurd h2' (by simp [Ordering.then])
          | lt =>
            rw [Nat.compare_eq_lt.mpr
              ((Nat.compare_eq_eq.mp hab) ▸ (Nat.compare_eq_lt.mp hbc))]
            rfl
          | eq =>
            rw [hbc] at h2'
            have h2r : ordListNat bs cs = .lt := h2'
            rw [Nat.compare_eq_eq.mpr
              ((Nat.compare_eq_eq.mp hab).trans (Nat.compare_eq_eq.mp hbc))]
            show Ordering.eq.then (ordListNat as cs) = .lt
            have := ih bs cs h1r h2r
            simp [Ordering.then, this]

lemma ordListNat_le_trans (x y z : List Nat)
    (h1 : ordListNat x y ≠ .gt) (h2 : ordListNat y z ≠ .gt) :
    ordListNat x z ≠ .gt := by
  cases hxy : ordListNat x y with
  | gt => exact absurd hxy h1
  | lt =>
    cases hyz : ordListNat y z with
    | gt => exact absurd hyz h2
    | lt => rw [ordListNat_lt_trans x y z hxy hyz]; simp
    | eq => rw [← ordListNat_eq_iff y z |>.mp hyz, hxy]; simp
  | eq =>
    rw [ordListNat_eq_iff x y |>.mp hxy]
    exact h2

lemma weights_inj (c d : Char) (h1 : primaryW c = primaryW d)
    (h2 : caseW c = caseW d) : c = d := by
  have hn : c.toNat = d.toNat := by
    unfold primaryW at h1
    unfold caseW at h2
    split_ifs at h1 h2 with hc hd
    all_goals omega
  exact Char.ext (UInt32.ext hn)

lemma charList_weights_inj : ∀ (x y : List Char),
    x.map primaryW = y.map primaryW → x.map caseW = y.map caseW → x = y := by
  intro x
  induction x with
  | nil =>
    intro y h1 _
    cases y with
    | nil => rfl
    | cons b bs => exact absurd h1 (by simp)
  | cons a as ih =>
    intro y h1 h2
    cases y with
    | nil => exact absurd h1 (by simp)
    | cons b bs =>
      simp only [List.map_cons, List.cons.injEq] at h1 h2
      rw [weights_inj a b h1.1 h2.1, ih bs h1.2 h2.2]

lemma localeOrd_eq_names (a b : String) (h : localeOrd a b = .eq) : a = b := by
  rw [localeOrd, ordering_then_eq] at h
  have h1 := (ordListNat_eq_iff _ _).mp h.1
  have h2 := (ordListNat_eq_iff _ _).mp h.2
  have := charList_weights_inj a.data b.data h1 h2
  cases a; cases b
  exact congrArg String.mk this

lemma localeOrd_swap (a b : String) : localeOrd a b = (localeOrd b a).swap := by
  rw [localeOrd, localeOrd, ordering_then_swap, ← ordListNat_swap, ← ordListNat_swap]

lemma localeCompare_lt_iff (a b : String) :
    localeCompare a b < 0 ↔ localeOrd a b = .lt := by
  rw [localeCompare]
  cases localeOrd a b <;> simp

lemma localeCompare_le_iff (a b : String) :
    localeCompare a b ≤ 0 ↔ localeOrd a b ≠ .gt := by
  rw [localeCompare]
  cases localeOrd a b <;> simp

lemma localeOrd_le_trans (a b c : String)
    (h1 : localeOrd a b ≠ .gt) (h2 : localeOrd b c ≠ .gt) :
    localeOrd a c ≠ .gt := by
  rw [localeOrd, ordering_then_ne_gt] at h1 h2 ⊢
  rcases h1 with h1 | ⟨h1e, h1c⟩
  · rcases h2 with h2 | ⟨h2e, h2c⟩
    · exact Or.inl (ordListNat_lt_trans _ _ _ h1 h2)
    · have hbc : b.data.map primaryW = c.data.map primaryW := (ordListNat_eq_iff _ _).mp h2e
      rw [← hbc]
      exact Or.inl h1
  · have hab : a.data.map primaryW = b.data.map primaryW := (ordListNat_eq_iff _ _).mp h1e
    rcases h2 with h2 | ⟨h2e, h2c⟩
    · rw [hab]
      exact Or.inl h2
    · have hbc : b.data.map primaryW = c.data.map primaryW := (ordListNat_eq_iff _ _).mp h2e
      refine Or.inr ⟨by rw [hab, hbc]; exact (ordListNat_eq_iff _ _).mpr rfl, ?_⟩
      exact ordListNat_le_trans _ _ _ h1c h2c

lemma nameLe_trans (a b c : Schema) (h1 : nameLe a b) (h2 : nameLe b c) : nameLe a c := by
  rw [nameLe, localeCompare_le_iff] at h1 h2 ⊢
  exact localeOrd_le_trans _ _ _ h1 h2

lemma nameLe_total_of_not_lt (a b : Schema)
    (h : ¬ localeCompare a.name b.name < 0) : nameLe b a := by
  rw [localeCompare_lt_iff] at h
  rw [nameLe, localeCompare_le_iff, localeOrd_swap]
  cases hab : localeOrd a.name b.name with
  | lt => exact absurd hab h
  | eq => decide
  | gt => decide

lemma insertSchema_pairwise (a : Schema) (l : List Schema)
    (h : l.Pairwise nameLe) : (insertSchema a l).Pairwise nameLe := by
  induction l with
  | nil => simp [insertSchema]
  | cons b bs ih =>
    rw [insertSchema]
    rcases List.pairwise_cons.mp h with ⟨hb, hbs⟩
    by_cases hab : localeCompare a.name b.name < 0
    · rw [if_pos hab]
      apply List.pairwise_cons.mpr
      refine ⟨?_, h⟩
      intro x hx
      rcases List.mem_cons.mp hx with hx | hx
      · rw [hx]; exact Int.le_of_lt hab
      · exact nameLe_trans a b x (Int.le_of_lt hab) (hb x hx)
    · rw [if_neg hab]
      apply List.pairwise_cons.mpr
      refine ⟨?_, ih hbs⟩
      intro x hx
      rcases List.mem_cons.mp ((insertSchema_perm a bs).mem_iff.mp hx) with hx | hx
      · rw [hx]
        exact nameLe_total_of_not_lt a b hab
      · exact hb x hx

lemma sortSchemas_pairwise (l : List Schema) : (sortSchemas l).Pairwise nameLe := by
  induction l with
  | nil => simp [sortSchemas]
  | cons a rest ih => exact insertSchema_pairwise a (sortSchemas rest) ih

lemma pairwise_perm_nodup_eq : ∀ (l₁ l₂ : List Schema), List.Perm l₁ l₂ →
    l₁.Pairwise nameLe → l₂.Pairwise nameLe →
    (l₁.map (fun s => s.name)).Nodup → l₁ = l₂ := by
  intro l₁
  induction l₁ with
  | nil =>
    intro l₂ hp _ _ _
    exact (hp.symm.eq_nil).symm
  | cons a t₁ ih =>
    intro l₂ hp h1 h2 hnd
    have ha2 : a ∈ l₂ := hp.subset (List.mem_cons_self a t₁)
    cases l₂ with
    | nil => cases ha2
    | cons b t₂ =>
      by_cases hab : a = b
      · subst hab
        have ht : t₁ = t₂ := ih t₂ hp.cons_inv (List.pairwise_cons.mp h1).2
          (List.pairwise_cons.mp h2).2 (by simpa using (List.nodup_cons.mp (by simpa using hnd)).2)
        rw [ht]
      · exfalso
        have hat2 : a ∈ t₂ := by
          rcases List.mem_cons.mp ha2 with h' | h'
          · exact absurd h' hab
          · exact h'
        have hbt1 : b ∈ t₁ := by
          have hb1 : b ∈ a :: t₁ := hp.symm.subset (List.mem_cons_self b t₂)
          rcases List.mem_cons.mp hb1 with h' | h'
          · exact absurd h'.symm hab
          · exact h'
        have hba : nameLe b a := (List.pairwise_cons.mp h2).1 a hat2
        have hab' : nameLe a b := (List.pairwise_cons.mp h1).1 b hbt1
        have hordeq : localeOrd a.name b.name = .eq := by
          rw [nameLe, localeCompare_le_iff] at hab' hba
          rw [localeOrd_swap] at hba
          cases hx : localeOrd a.name b.name with
          | eq => rfl
          | lt => rw [hx] at hba; exact (hba (by decide)).elim
          | gt => exact absurd hx hab'
        have hnameeq : a.name = b.name := localeOrd_eq_names _ _ hordeq
        exact hab (map_nodup_inj _ (a :: t₁) hnd a (List.mem_cons_self a t₁) b
          (List.mem_cons.mpr (Or.inr hbt1)) hnameeq)

/-- C3 (amended): within one readiness pass the appended entities are
ordered ascending under the modelled `localeCompare` collation of
Names — not under raw character codes — and, when the Names are
pairwise distinct, the pass output does not depend on the input order
of the pending list. -/
theorem pass_locale_sorted_deterministic
    (sortedNames : List String) (u u' : List Schema)
    (hperm : List.Perm u u') (hnd : (u.map (fun s => s.name)).Nodup) :
    (readyPass sortedNames u).Pairwise nameLe ∧
    readyPass sortedNames u = readyPass sortedNames u' := by
  refine ⟨sortSchemas_pairwise _, ?_⟩
  have hpf : List.Perm (u.filter (fun s => isReady sortedNames s))
      (u'.filter (fun s => isReady sortedNames s)) := hperm.filter _
  have hq : List.Perm (readyPass sortedNames u) (readyPass sortedNames u') :=
    ((sortSchemas_perm _).trans hpf).trans (sortSchemas_perm _).symm
  apply pairwise_perm_nodup_eq _ _ hq (sortSchemas_pairwise _) (sortSchemas_pairwise _)
  have hnd1 : ((u.filter (fun s => isReady sortedNames s)).map (fun s => s.name)).Nodup :=
    List.Nodup.sublist ((List.filter_sublist u).map _) hnd
  have hp2 : List.Perm ((readyPass sortedNames u).map (fun s => s.name))
      ((u.filter (fun s => isReady sortedNames s)).map (fun s => s.name)) :=
    (sortSchemas_perm _).map _
  exact hp2.nodup_iff.mpr hnd1

/-- C3 counterexample: with entities named `a` and `B`, both ready in
the first pass, the resolver emits `a` before `B` (the locale collation
puts lowercase `a` before uppercase `B`), although the character-code
comparison orders `"B"` strictly before `"a"`; the pass output is
therefore not ascending under character-code comparison. -/
theorem pass_not_charcode_sorted :
    (readyPass [] [⟨"a", .enum []⟩, ⟨"B", .enum []⟩]).map (fun s => s.name) =
      ["a", "B"] ∧
    ((sort [⟨"a", .enum []⟩, ⟨"B", .enum []⟩]).1).map (fun s => s.name) =
      ["a", "B"] ∧
    charCodeLe "a" "B" = false := by
  refine ⟨by decide, ?_, by decide⟩
  rw [sort_eval]
  decide

/-- C5: the rule mapper coerces a number/boolean base constructor
exactly when the member is a method parameter whose HTTP binding is a
header, query, or path location; a body-bound parameter and any
non-parameter member never coerce. -/
theorem coercion_characterization
    (svc : Service) (m : Member) (parent : Schema) (po : Bool) (circ : List Schema) :
    (m.isPrimitive = true → m.constant = none →
      ((m.typeName = "number" ∨ m.typeName = "integer" ∨ m.typeName = "long" ∨
        m.typeName = "float" ∨ m.typeName = "double") →
        (buildMemberSchemaParts svc m parent po circ).head? =
          some ("z" ++ (if shouldCoerce svc m parent then ".coerce" else "") ++
            ".number()")) ∧
      (m.typeName = "boolean" →
        (buildMemberSchemaParts svc m parent po circ).head? =
          some ("z" ++ (if shouldCoerce svc m parent then ".coerce" else "") ++
            ".boolean()"))) ∧
    (shouldCoerce svc m parent = true ↔
      m.kind = some .parameter ∧
      ∃ methodName parameters, parent.element = .method methodName parameters ∧
      ∃ hm, getHttpMethodByName svc methodName = some hm ∧
      ∃ hp, hm.parameters.find? (fun p => camel p.name == camel m.name) = some hp ∧
        (hp.location = "header" ∨ hp.location = "query" ∨ hp.location = "path")) ∧
    (∀ methodName parameters hm hp,
      parent.element = .method methodName parameters →
      getHttpMethodByName svc methodName = some hm →
      hm.parameters.find? (fun p => camel p.name == camel m.name) = some hp →
      hp.location = "body" → shouldCoerce svc m parent = false) ∧
    (m.kind ≠ some .parameter → shouldCoerce svc m parent = false) := by
  refine ⟨?_, ?_, ?_, ?_⟩
  · intro hprim hconst
    constructor
    · intro ht
      rcases ht with ht | ht | ht | ht | ht <;>
        simp [buildMemberSchemaParts, primitiveSeg, numberSeg, hprim, hconst, ht]
    · intro ht
      simp [buildMemberSchemaParts, primitiveSeg, booleanSeg, hprim, hconst, ht]
  · constructor
    · intro h
      rcases hk : m.kind with _ | k
      · simp [shouldCoerce, hk] at h
      · cases k with
        | parameter =>
          rcases hel : parent.element with _ | _ | _ | _
          case method methodName parameters =>
            rcases hget : getHttpMethodByName svc methodName with _ | hm
            · simp [shouldCoerce, hk, hel, hget] at h
            · rcases hfind : hm.parameters.find?
                (fun p => camel p.name == camel m.name) with _ | hp
              · simp [shouldCoerce, hk, hel, hget, hfind] at h
              · simp only [shouldCoerce, hk, hel, hget, hfind] at h
                refine ⟨rfl, methodName, parameters, rfl, hm, hget, hp, hfind, ?_⟩
                have h' := h
                simp at h'
                tauto
          all_goals simp [shouldCoerce, hk, hel] at h
        | property => simp [shouldCoerce, hk] at h
        | mapKey => simp [shouldCoerce, hk] at h
        | mapValue => simp [shouldCoerce, hk] at h
    · rintro ⟨hk, methodName, parameters, hel, hm, hget, hp, hfind, hloc⟩
      simp only [shouldCoerce, hk, hel, hget, hfind]
      rcases hloc with h | h | h <;> simp [h]
  · intro methodName parameters hm hp hel hget hfind hloc
    rcases hk : m.kind with _ | k
    · simp [shouldCoerce, hk]
    · cases k with
      | parameter => simp [shouldCoerce, hk, hel, hget, hfind, hloc]
      | property => simp [shouldCoerce, hk]
      | mapKey => simp [shouldCoerce, hk]
      | mapValue => simp [shouldCoerce, hk]
  · intro h
    rcases hk : m.kind with _ | k
    · simp [shouldCoerce, hk]
    · cases k with
      | parameter => exact absurd hk h
      | property => simp [shouldCoerce, hk]
      | mapKey => simp [shouldCoerce, hk]
      | mapValue => simp [shouldCoerce, hk]

/-- C6: for a non-constant, non-enum string member, a min-length of 1
with no max-length yields the `nonempty()` constraint (no `min(1)`),
and equal min- and max-length rules yield a single exact `length(n)`
constraint instead of separate `min`/`max` constraints. -/
theorem string_length_constraint_forms
    (svc : Service) (parent : Schema) (po : Bool) (circ : List Schema) (m : Member)
    (hprim : m.isPrimitive = true) (ht : m.typeName = "string")
    (hconst : m.constant = none)
    (henum : m.rules.find? (fun r => r.id == "string-enum") = none) :
    (∀ minRule, m.rules.find? (fun r => r.id == "string-min-length") = some minRule →
      minRule.length = 1 →
      m.rules.find? (fun r => r.id == "string-max-length") = none →
      buildMemberSchemaParts svc m parent po circ =
        ["z.string()", "nonempty()"] ++
        (match m.rules.find? (fun r => r.id == "string-pattern") with
         | some patternRule => ["regex(/" ++ patternRule.pattern ++ "/)"]
         | none => []) ++
        (match m.default with
         | some d => ["default('" ++ d ++ "')"]
         | none => []) ++
        arraySeg m ++ optionalSeg m po) ∧
    (∀ minRule maxRule,
      m.rules.find? (fun r => r.id == "string-min-length") = some minRule →
      m.rules.find? (fun r => r.id == "string-max-length") = some maxRule →
      minRule.length = maxRule.length →
      buildMemberSchemaParts svc m parent po circ =
        ["z.string()", "length(" ++ toString minRule.length ++ ")"] ++
        (match m.rules.find? (fun r => r.id == "string-pattern") with
         | some patternRule => ["regex(/" ++ patternRule.pattern ++ "/)"]
         | none => []) ++
        (match m.default with
         | some d => ["default('" ++ d ++ "')"]
         | none => []) ++
        arraySeg m ++ optionalSeg m po) := by
  constructor
  · intro minRule hmin hlen hmax
    simp [buildMemberSchemaParts, primitiveSeg, stringSeg, hprim, ht, hconst, henum,
      hmin, hmax, hlen]
  · intro minRule maxRule hmin hmax hlen
    simp [buildMemberSchemaParts, primitiveSeg, stringSeg, hprim, ht, hconst, henum,
      hmin, hmax, hlen]

/-- C7 counterexample: a record entity carrying an
`object-min-properties` rule but no map extension gets no key-count
refinement at all — the synthesizer appends refinements only under its
`mapProperties` guard, so the claimed "no further precondition such as
the presence of a map extension" fails on the code. -/
theorem keycount_refinement_counterexample :
    ([({ id := "object-min-properties", min := 1 } : Rule)].find?
        (fun r => r.id == "object-min-properties") =
      some ({ id := "object-min-properties", min := 1 } : Rule)) ∧
    buildSchemaLines ⟨[]⟩
        ⟨"Foo", .type [] none [({ id := "object-min-properties", min := 1 } : Rule)]⟩ [] =
      ["export const FooSchema = ", "z.record(z.any())"] ∧
    ¬ ".refine(" ∈ buildSchemaLines ⟨[]⟩
        ⟨"Foo", .type [] none [({ id := "object-min-properties", min := 1 } : Rule)]⟩ [] :=
  ⟨by decide, by decide, by decide⟩

/-- C7 (amended): for a record entity WITH a map extension, the
synthesizer appends, after constructing the structural schema, one
post-construction refinement per present key-count bound, each
carrying its human-readable violation message. -/
theorem keycount_refinements_with_map
    (svc : Service) (name : String) (properties : List Member) (mp : MapProps)
    (rules : List Rule) (circ : List Schema) :
    (∀ minRule, rules.find? (fun r => r.id == "object-min-properties") = some minRule →
      ∃ p₁ p₂, buildSchemaLines svc ⟨name, .type properties (some mp) rules⟩ circ =
        p₁ ++ minRefineSeg minRule ++ p₂ ∧
        ("  \x7b message: 'Object must have at least " ++ toString minRule.min ++
          " keys' \x7d,") ∈ minRefineSeg minRule) ∧
    (∀ maxRule, rules.find? (fun r => r.id == "object-max-properties") = some maxRule →
      ∃ p₁ p₂, buildSchemaLines svc ⟨name, .type properties (some mp) rules⟩ circ =
        p₁ ++ maxRefineSeg maxRule ++ p₂ ∧
        ("  \x7b message: 'Object must have at most " ++ toString maxRule.max ++
          " keys' \x7d,") ∈ maxRefineSeg maxRule) := by
  constructor
  · intro minRule hmin
    refine ⟨typeKeyPrelude svc ⟨name, .type properties (some mp) rules⟩ properties (some mp) ++
      ["export const " ++ pascal name ++ "Schema = "] ++
      typeStructural svc ⟨name, .type properties (some mp) rules⟩ properties (some mp)
        rules circ ++
      (match rules.find? (fun r => r.id == "object-max-properties") with
       | some r => maxRefineSeg r
       | none => []),
      typeKeyValidation ⟨name, .type properties (some mp) rules⟩ properties (some mp),
      ?_, by simp [minRefineSeg]⟩
    simp only [buildSchemaLines, typeRefines, hmin]
    simp [List.append_assoc]
  · intro maxRule hmax
    refine ⟨typeKeyPrelude svc ⟨name, .type properties (some mp) rules⟩ properties (some mp) ++
      ["export const " ++ pascal name ++ "Schema = "] ++
      typeStructural svc ⟨name, .type properties (some mp) rules⟩ properties (some mp)
        rules circ,
      (match rules.find? (fun r => r.id == "object-min-properties") with
       | some r => minRefineSeg r
       | none => []) ++
      typeKeyValidation ⟨name, .type properties (some mp) rules⟩ properties (some mp),
      ?_, by simp [maxRefineSeg]⟩
    simp only [buildSchemaLines, typeRefines, hmax]
    simp [List.append_assoc]

/-- C8 counterexample: in the synthesizer of `src/unnamed/part_000`, a
two-variant all-primitive union emits the union with inline variant
schemas — no "not supported" marker appears anywhere in its output. -/
theorem primitive_union_no_marker_counterexample :
    buildSchemaLines ⟨[]⟩
        ⟨"Thing", .union [{ isPrimitive := true, typeName := "string" },
          { isPrimitive := true, typeName := "number" }] none⟩ [] =
      ["export const ThingSchema = z.union([", "z.string(),", "z.number(),", "]);"] ∧
    ¬ "// Primitive unions are not yet supported" ∈ buildSchemaLines ⟨[]⟩
        ⟨"Thing", .union [{ isPrimitive := true, typeName := "string" },
          { isPrimitive := true, typeName := "number" }] none⟩ [] :=
  ⟨by decide, by decide⟩

/-- C8 (amended): a multi-variant all-primitive union never aborts
synthesis; the current synthesizer emits the union with inline
primitive variant schemas (optionality suppressed, no marker), while
the superseded module variant emits the explicit
"not yet supported" marker in place of the variant schemas. -/
theorem primitive_union_behavior
    (svc : Service) (circ : List Schema) (name : String) (members : List Member)
    (disc : Option String)
    (hall : ∀ mm ∈ members, mm.isPrimitive = true)
    (h2 : 2 ≤ members.length) :
    buildSchemaLines svc ⟨name, .union members disc⟩ circ =
      (match disc with
       | some d =>
         ["export const " ++ pascal name ++ "Schema = z.discriminatedUnion('" ++
          camel d ++ "', ["]
       | none => ["export const " ++ pascal name ++ "Schema = z.union(["]) ++
      members.map (fun mm =>
        buildMemberSchema svc mm ⟨name, .union members disc⟩ true [] ++ ",") ++
      ["]);"] ∧
    (∀ t1 t2 rest, oldUnionLines name .primitiveU (t1 :: t2 :: rest) =
      ["export const " ++ pascal name ++ "Schema = z.union([",
       "// Primitive unions are not yet supported",
       "]);"]) := by
  constructor
  · have hfilter : members.filter (fun mm => !mm.isPrimitive) = [] := by
      rw [List.filter_eq_nil_iff]
      intro mm hmm
      simp [hall mm hmm]
    simp only [buildSchemaLines, hfilter]
    have hmap : members.map (fun mm =>
        if mm.isPrimitive then
          buildMemberSchema svc mm ⟨name, .union members disc⟩ true [] ++ ","
        else pascal mm.typeName ++ "Schema,") =
      members.map (fun mm =>
        buildMemberSchema svc mm ⟨name, .union members disc⟩ true [] ++ ",") := by
      apply List.map_congr_left
      intro mm hmm
      rw [if_pos (hall mm hmm)]
    rw [hmap]
  · intro t1 t2 rest
    simp only [oldUnionLines]
    have hkind : (if (OldUnionKind.primitiveU = OldUnionKind.discriminatedU) then
        "discriminatedUnion" else "union") = "union" := by decide
    rw [hkind, if_pos trivial, String.append_assoc, String.append_assoc]
    rfl

/-- C9: a union with exactly one non-primitive variant synthesizes as
a direct alias of that variant's schema — the single emitted line —
silently omitting any primitive variants from the output. -/
theorem union_single_complex_alias
    (svc : Service) (circ : List Schema) (name : String) (members : List Member)
    (disc : Option String) (m : Member)
    (hfilter : members.filter (fun mm => !mm.isPrimitive) = [m]) :
    buildSchemaLines svc ⟨name, .union members disc⟩ circ =
      ["export const " ++ pascal name ++ "Schema = " ++ pascal m.typeName ++ "Schema;"] := by
  simp [buildSchemaLines, hfilter]

theorem resolver_acyclic_correct_witness :
    (∀ s ∈ [exA, exB], ∀ d ∈ complexDeps s, d ≠ s.name →
      ∃ t, t ∈ [exA, exB] ∧ t.name = d) ∧
    (¬ ∃ x p, x ∈ [exA, exB] ∧ (∀ y ∈ p, y ∈ [exA, exB]) ∧
      List.Chain depEdge x (p ++ [x])) ∧
    ((sort [exA, exB]).2 = [] ∧ List.Perm (sort [exA, exB]).1 [exA, exB] ∧
      topoOk (sort [exA, exB]).1) := by
  have hdA : complexDeps exA = ["B"] := by decide
  have hdB : complexDeps exB = [] := by decide
  have hclosed : ∀ s ∈ [exA, exB], ∀ d ∈ complexDeps s, d ≠ s.name →
      ∃ t, t ∈ [exA, exB] ∧ t.name = d := by
    intro s hs d hd _
    rcases List.mem_cons.mp hs with rfl | hs
    · rw [hdA] at hd
      have : d = "B" := List.mem_singleton.mp hd
      exact ⟨exB, by simp, by rw [this]; rfl⟩
    · rcases List.mem_cons.mp hs with rfl | hs
      · rw [hdB] at hd
        cases hd
      · cases hs
  have hedge : ∀ a b : Schema, depEdge a b → a ∈ [exA, exB] → a = exA ∧ b.name = "B" := by
    intro a b hd ha
    rcases List.mem_cons.mp ha with rfl | ha
    · refine ⟨rfl, ?_⟩
      have := hd.1
      rw [hdA] at this
      exact List.mem_singleton.mp this
    · rcases List.mem_cons.mp ha with rfl | ha
      · exfalso
        have := hd.1
        rw [hdB] at this
        cases this
      · cases ha
  have hacyc : ¬ ∃ x p, x ∈ [exA, exB] ∧ (∀ y ∈ p, y ∈ [exA, exB]) ∧
      List.Chain depEdge x (p ++ [x]) := by
    rintro ⟨x, p, hx, hp, hch⟩
    cases p with
    | nil =>
      cases hch with
      | cons h1 _ => exact h1.2 rfl
    | cons y p' =>
      cases hch with
      | cons h1 hch' =>
        obtain ⟨hxA, hyB⟩ := hedge x y h1 hx
        have hyA : y = exA ∧ True := by
          cases p' with
          | nil =>
            cases hch' with
            | cons h2 _ =>
              exact ⟨(hedge y x h2 (hp y (by simp))).1, trivial⟩
          | cons z p'' =>
            cases hch' with
            | cons h2 _ =>
              exact ⟨(hedge y z h2 (hp y (by simp))).1, trivial⟩
        rw [hyA.1] at hyB
        exact absurd hyB (by decide)
  exact ⟨hclosed, hacyc, resolver_acyclic_correct [exA, exB] hclosed hacyc⟩

theorem cycle_members_circular_and_lazy_witness :
    ("B" ∈ complexDeps cycA ∧ "A" ∈ complexDeps cycB ∧ cycA.name ≠ cycB.name) ∧
    (cycA ∈ (sort [cycA, cycB]).2 ∧ cycB ∈ (sort [cycA, cycB]).2 ∧
     buildMemberSchemaParts ⟨[]⟩ cycARef cycA false (sort [cycA, cycB]).2 =
       ("z.lazy(()=>" ++ pascal cycARef.typeName ++ "Schema)") ::
         (arraySeg cycARef ++ optionalSeg cycARef false) ∧
     buildMemberSchemaParts ⟨[]⟩ cycBRef cycB false (sort [cycA, cycB]).2 =
       ("z.lazy(()=>" ++ pascal cycBRef.typeName ++ "Schema)") ::
         (arraySeg cycBRef ++ optionalSeg cycBRef false)) := by
  have h := cycle_members_circular_and_lazy ⟨[]⟩ [cycA, cycB] cycA cycB cycARef cycBRef
    (by decide) (by decide) (by decide) (by decide) (by decide) (by decide)
    (by decide) (by decide) (by decide) (by decide)
  exact ⟨⟨by decide, by decide, by decide⟩, h.1, h.2.1, h.2.2.1, h.2.2.2⟩

theorem pass_locale_sorted_deterministic_witness :
    List.Perm [(⟨"b", .enum []⟩ : Schema), ⟨"a", .enum []⟩]
      [(⟨"a", .enum []⟩ : Schema), ⟨"b", .enum []⟩] ∧
    ((readyPass [] [(⟨"b", .enum []⟩ : Schema), ⟨"a", .enum []⟩]).Pairwise nameLe ∧
     readyPass [] [(⟨"b", .enum []⟩ : Schema), ⟨"a", .enum []⟩] =
       readyPass [] [(⟨"a", .enum []⟩ : Schema), ⟨"b", .enum []⟩]) := by
  refine ⟨by decide, ?_⟩
  exact pass_locale_sorted_deterministic []
    [(⟨"b", .enum []⟩ : Schema), ⟨"a", .enum []⟩]
    [(⟨"a", .enum []⟩ : Schema), ⟨"b", .enum []⟩] (by decide) (by decide)

theorem resolver_pass_bound_witness :
    sortPasses [] [(⟨"E", .enum []⟩ : Schema)] ≤ 1 ∧
    ([(⟨"E", .enum []⟩ : Schema)] ≠ [] ∧
      (([(⟨"E", .enum []⟩ : Schema)].filter (fun s => !isReady [] s)).length <
          [(⟨"E", .enum []⟩ : Schema)].length ∨
        sortGo [] [] [(⟨"E", .enum []⟩ : Schema)] = ([], [(⟨"E", .enum []⟩ : Schema)]))) := by
  have h := resolver_pass_bound [(⟨"E", .enum []⟩ : Schema)]
  exact ⟨h.1, by decide, h.2 [] [] [(⟨"E", .enum []⟩ : Schema)] (by decide)⟩

theorem coercion_characterization_witness :
    (buildMemberSchemaParts coerceSvc coerceQ coerceParent false []).head? =
      some ("z" ++ (if shouldCoerce coerceSvc coerceQ coerceParent then ".coerce"
        else "") ++ ".number()") ∧
    shouldCoerce coerceSvc coerceQ coerceParent = true ∧
    shouldCoerce coerceSvc coerceB coerceParent = false ∧
    (buildMemberSchemaParts coerceSvc coerceB coerceParent false []).head? =
      some "z.number()" := by
  have hq := coercion_characterization coerceSvc coerceQ coerceParent false []
  have hb := coercion_characterization coerceSvc coerceB coerceParent false []
  refine ⟨(hq.1 (by decide) (by decide)).1 (Or.inl (by decide)), ?_, ?_, ?_⟩
  · exact hq.2.1.mpr ⟨by decide, "getThing", [coerceQ, coerceB], by decide,
      ⟨"getThing", [⟨"q", "query"⟩, ⟨"b", "body"⟩]⟩, by decide,
      ⟨"q", "query"⟩, by decide, Or.inr (Or.inl (by decide))⟩
  · exact hb.2.2.1 "getThing" [coerceQ, coerceB]
      ⟨"getThing", [⟨"q", "query"⟩, ⟨"b", "body"⟩]⟩ ⟨"b", "body"⟩
      (by decide) (by decide) (by decide) (by decide)
  · have hbody : shouldCoerce coerceSvc coerceB coerceParent = false :=
      hb.2.2.1 "getThing" [coerceQ, coerceB]
        ⟨"getThing", [⟨"q", "query"⟩, ⟨"b", "body"⟩]⟩ ⟨"b", "body"⟩
        (by decide) (by decide) (by decide) (by decide)
    have := (hb.1 (by decide) (by decide)).1 (Or.inl (by decide))
    rw [hbody] at this
    simpa using this

theorem string_length_constraint_forms_witness :
    buildMemberSchemaParts ⟨[]⟩ strMin1 ⟨"P", .enum []⟩ false [] =
      ["z.string()", "nonempty()"] ++
      (match strMin1.rules.find? (fun r => r.id == "string-pattern") with
       | some patternRule => ["regex(/" ++ patternRule.pattern ++ "/)"]
       | none => []) ++
      (match strMin1.default with
       | some d => ["default('" ++ d ++ "')"]
       | none => []) ++
      arraySeg strMin1 ++ optionalSeg strMin1 false ∧
    buildMemberSchemaParts ⟨[]⟩ strLen3 ⟨"P", .enum []⟩ false [] =
      ["z.string()", "length(" ++ toString (3 : Int) ++ ")"] ++
      (match strLen3.rules.find? (fun r => r.id == "string-pattern") with
       | some patternRule => ["regex(/" ++ patternRule.pattern ++ "/)"]
       | none => []) ++
      (match strLen3.default with
       | some d => ["default('" ++ d ++ "')"]
       | none => []) ++
      arraySeg strLen3 ++ optionalSeg strLen3 false := by
  have h1 := string_length_constraint_forms ⟨[]⟩ ⟨"P", .enum []⟩ false [] strMin1
    (by decide) (by decide) (by decide) (by decide)
  have h2 := string_length_constraint_forms ⟨[]⟩ ⟨"P", .enum []⟩ false [] strLen3
    (by decide) (by decide) (by decide) (by decide)
  constructor
  · exact h1.1 { id := "string-min-length", length := 1 } (by decide) (by decide) (by decide)
  · exact h2.2 { id := "string-min-length", length := 3 }
      { id := "string-max-length", length := 3 } (by decide) (by decide) (by decide)

theorem keycount_refinements_with_map_witness :
    ([({ id := "object-min-properties", min := 2 } : Rule)].find?
        (fun r => r.id == "object-min-properties") =
      some ({ id := "object-min-properties", min := 2 } : Rule)) ∧
    ∃ p₁ p₂, buildSchemaLines ⟨[]⟩
        ⟨"M", .type [] (some keyMP) [({ id := "object-min-properties", min := 2 } : Rule)]⟩ [] =
      p₁ ++ minRefineSeg { id := "object-min-properties", min := 2 } ++ p₂ ∧
      ("  \x7b message: 'Object must have at least " ++ toString (2 : Int) ++
        " keys' \x7d,") ∈ minRefineSeg { id := "object-min-properties", min := 2 } := by
  refine ⟨by decide, ?_⟩
  exact (keycount_refinements_with_map ⟨[]⟩ "M" [] keyMP
    [({ id := "object-min-properties", min := 2 } : Rule)] []).1
    { id := "object-min-properties", min := 2 } (by decide)

theorem primitive_union_behavior_witness :
    buildSchemaLines ⟨[]⟩ ⟨"U", .union [{ isPrimitive := true, typeName := "string" },
        { isPrimitive := true, typeName := "boolean" }] none⟩ [] =
      ["export const USchema = z.union(["] ++
      [{ isPrimitive := true, typeName := "string" },
        ({ isPrimitive := true, typeName := "boolean" } : Member)].map (fun mm =>
          buildMemberSchema ⟨[]⟩ mm ⟨"U", .union [{ isPrimitive := true, typeName := "string" },
            { isPrimitive := true, typeName := "boolean" }] none⟩ true [] ++ ",") ++
      ["]);"] ∧
    oldUnionLines "U" .primitiveU ["string", "boolean"] =
      ["export const USchema = z.union([",
       "// Primitive unions are not yet supported",
       "]);"] := by
  have h := primitive_union_behavior ⟨[]⟩ [] "U"
    [{ isPrimitive := true, typeName := "string" },
     { isPrimitive := true, typeName := "boolean" }] none (by decide) (by decide)
  constructor
  · have h1 := h.1
    refine h1.trans ?_
    congr 1
  · exact h.2 "string" "boolean" []

theorem union_single_complex_alias_witness :
    ([{ isPrimitive := true, typeName := "string" },
      ({ isPrimitive := false, typeName := "Foo" } : Member)].filter
        (fun mm => !mm.isPrimitive) =
      [({ isPrimitive := false, typeName := "Foo" } : Member)]) ∧
    buildSchemaLines ⟨[]⟩ ⟨"U2", .union [{ isPrimitive := true, typeName := "string" },
        { isPrimitive := false, typeName := "Foo" }] none⟩ [] =
      ["export const " ++ pascal "U2" ++ "Schema = " ++ pascal "Foo" ++ "Schema;"] := by
  refine ⟨by decide, ?_⟩
  exact union_single_complex_alias ⟨[]⟩ [] "U2"
    [{ isPrimitive := true, typeName := "string" },
     { isPrimitive := false, typeName := "Foo" }] none
    { isPrimitive := false, typeName := "Foo" } (by decide)
